import Mathlib

/-!
Verification development for the twoslash documentation-annotation pipeline
and the demo library it ships with.

The demo library's own functions (`Config`, `process_items`, `Store`) are
embedded directly from `src/lib.rs`.  The extraction–annotate–merge pipeline
(BlockExtractor, SpanMapper, AnnotationProvider, DecorationMerger,
TokenEmitter) is described only by the architecture specification; its
components are modelled here from that specification, each marked
`Modelled from the spec:` in its doc comment.
-/

namespace Twoslash

/-- Modelled from the spec: a half-open byte span `start <= stop` in a
designated coordinate space (`src/` contains no pipeline code; the Rust
field `end` is a Lean keyword, so it is named `stop` here). -/
structure Span where
  start : Nat
  stop : Nat
deriving DecidableEq, Repr

/-- Modelled from the spec: syntax classes produced by the highlighter
(keyword, string, etc.). -/
inductive HighlightClass where
  | Keyword
  | StringLit
  | Comment
  | Ident
deriving DecidableEq, Repr

/-- The fixed enumeration of all highlight classes. -/
def allHighlightClasses : List HighlightClass :=
  [.Keyword, .StringLit, .Comment, .Ident]

/-- Modelled from the spec: `HighlightFact = {snippet_span, class}` (its
`class` field is a Lean keyword, named `cls` here). -/
structure HighlightFact where
  snippet_span : Span
  cls : HighlightClass
deriving DecidableEq, Repr

/-- Modelled from the spec: `TypeFact = {snippet_span, label, diagnostic}`. -/
structure TypeFact where
  snippet_span : Span
  label : String
  diagnostic : Option String
deriving DecidableEq, Repr

/-- Modelled from the spec: the merged `Decoration`
`{snippet_span, class: Option ClassSet, type_label: Option Text}`, plus the
diagnostic marker a merge conflict attaches (spec section 4.4). -/
structure Decoration where
  snippet_span : Span
  cls : Option (List HighlightClass)
  type_label : Option String
  diagnostic : Option String
deriving DecidableEq, Repr

/-- Modelled from the spec: the final emitted unit
`Token = {text_slice, class, type_label}`.  Snippet text is represented as
its character list, so `text_slice` is a character slice; on the byte level
this is exact, UTF-8 encoding being injective. -/
structure Token where
  text_slice : List Char
  cls : Option (List HighlightClass)
  type_label : Option String
deriving DecidableEq, Repr

/-- Every span boundary occurring in the two fact streams, with repetition. -/
def boundsList (hs : List HighlightFact) (ts : List TypeFact) : List Nat :=
  hs.map (fun f => f.snippet_span.start) ++ hs.map (fun f => f.snippet_span.stop)
    ++ ts.map (fun f => f.snippet_span.start) ++ ts.map (fun f => f.snippet_span.stop)

/-- Whether `n` is a span boundary of one of the facts. -/
def isBoundary (hs : List HighlightFact) (ts : List TypeFact) (n : Nat) : Bool :=
  (hs.any fun f => f.snippet_span.start = n || f.snippet_span.stop = n)
    || (ts.any fun f => f.snippet_span.start = n || f.snippet_span.stop = n)

/-- Modelled from the spec: the coordinate-compression pass of
DecorationMerger — the ordered list of distinct span boundaries drawn from
both fact streams.  Computed by filtering an enumeration of all candidate
offsets, which yields exactly the sorted duplicate-free boundary list. -/
def boundaries (hs : List HighlightFact) (ts : List TypeFact) : List Nat :=
  (List.range ((boundsList hs ts).sum + 1)).filter (fun n => isBoundary hs ts n)

/-- Consecutive pairs of a list: the minimal intervals between boundaries. -/
def intervals : List Nat → List (Nat × Nat)
  | a :: b :: rest => (a, b) :: intervals (b :: rest)
  | _ => []

/-- Whether span `s` covers the whole interval `[a, b)`. -/
def coversI (s : Span) (a b : Nat) : Bool :=
  decide (s.start ≤ a) && decide (b ≤ s.stop)

/-- The set of highlight classes whose facts cover `[a, b)`, listed in the
fixed enumeration order (hence independent of the fact stream's order). -/
def classesFor (hs : List HighlightFact) (a b : Nat) : List HighlightClass :=
  allHighlightClasses.filter fun c =>
    hs.any fun f => coversI f.snippet_span a b && decide (f.cls = c)

/-- The type label carried by a list of covering type facts, together with
the conflict diagnostic: one common label is attached; disagreeing facts
of the same kind are a merge conflict reported as a diagnostic rather than
silently resolved (spec section 4.4). -/
def labelInfo : List TypeFact → Option String × Option String
  | [] => (none, none)
  | f :: rest =>
    if rest.all (fun g => g.label = f.label) then (some f.label, none)
    else (none, some "conflicting type facts")

/-- Modelled from the spec: the decoration DecorationMerger attaches to the
minimal interval `[a, b)`, or `none` when no fact from either stream covers
it (gaps are filled later, before emission). -/
def mkDecoration (hs : List HighlightFact) (ts : List TypeFact) (a b : Nat) :
    Option Decoration :=
  let cs := classesFor hs a b
  let cover := ts.filter fun f => coversI f.snippet_span a b
  if cs.isEmpty && cover.isEmpty then none
  else
    let li := labelInfo cover
    some { snippet_span := ⟨a, b⟩
           cls := if cs.isEmpty then none else some cs
           type_label := li.1
           diagnostic := li.2 }

/-- Modelled from the spec: `DecorationMerger.merge` — sweep the minimal
intervals between collected boundaries and attach to each the union of the
information of the facts covering it. -/
def merge (hs : List HighlightFact) (ts : List TypeFact) : List Decoration :=
  (intervals (boundaries hs ts)).filterMap fun p => mkDecoration hs ts p.1 p.2

/-- A synthetic plain decoration covering `[a, b)`. -/
def plainDec (a b : Nat) : Decoration :=
  { snippet_span := ⟨a, b⟩, cls := none, type_label := none, diagnostic := none }

/-- Gap filling from position `pos` up to snippet length `len`. -/
def gapFillFrom (len : Nat) : Nat → List Decoration → List Decoration
  | pos, [] => if pos < len then [plainDec pos len] else []
  | pos, d :: rest =>
    if pos < d.snippet_span.start then
      plainDec pos d.snippet_span.start :: d :: gapFillFrom len d.snippet_span.stop rest
    else d :: gapFillFrom len d.snippet_span.stop rest

/-- Modelled from the spec: the synthetic-plain gap filling that makes the
decoration sequence fully tile the snippet before emission (spec 4.5). -/
def gapFill (len : Nat) (decs : List Decoration) : List Decoration :=
  gapFillFrom len 0 decs

/-- The slice of the snippet text designated by a span. -/
def sliceOf (text : List Char) (s : Span) : List Char :=
  (text.drop s.start).take (s.stop - s.start)

/-- Modelled from the spec: `TokenEmitter` walks the merged decorations
against the snippet text and emits the markup-ready tokens. -/
def emitTokens (text : List Char) (decs : List Decoration) : List Token :=
  decs.map fun d => ⟨sliceOf text d.snippet_span, d.cls, d.type_label⟩

/-- Whether a decoration sequence tiles `[pos, len)` exactly: each
decoration starts where the previous one stopped, spans are well formed,
and the last one stops at `len` (the spec 4.5 premise for emission). -/
def tilesFrom (len : Nat) : Nat → List Decoration → Bool
  | pos, [] => pos = len
  | pos, d :: rest =>
    decide (d.snippet_span.start = pos) && decide (pos ≤ d.snippet_span.stop)
      && tilesFrom len d.snippet_span.stop rest

/-- Modelled from the spec: the line layout SpanMapper records for a block —
the document offset where the block's code starts, the byte length of each
extracted code line (newline included), and the number of bytes stripped
from the front of each original line (fence indent, doc-comment marker such
as a leading `///`).  `src/` contains no SpanMapper code. -/
structure BlockLayout where
  origin_start : Nat
  line_lens : List Nat
  line_prefixes : List Nat

/-- The index of the extracted line containing local byte offset `o`. -/
def lineIndex : List Nat → Nat → Nat
  | [], _ => 0
  | l :: rest, o => if o < l then 0 else lineIndex rest (o - l) + 1

/-- Modelled from the spec: `SpanMapper.to_document` on a single offset —
the block's origin plus the local offset plus every stripped per-line
prefix up to and including the offset's own line. -/
def toDocumentOffset (layout : BlockLayout) (o : Nat) : Nat :=
  layout.origin_start + o
    + (layout.line_prefixes.take (lineIndex layout.line_lens o + 1)).sum

/-- Modelled from the spec: `SpanMapper.to_document` on a span. -/
def to_document (layout : BlockLayout) (s : Span) : Span :=
  ⟨toDocumentOffset layout s.start, toDocumentOffset layout s.stop⟩

/-- Modelled from the spec: one line of documentation text as BlockExtractor
sees it — either a fence line carrying a language tag (the empty tag is the
bare closing fence) or an ordinary text line. -/
inductive DocLine where
  | fence (tag : String)
  | text (content : String)
deriving DecidableEq, Repr

/-- The structural errors of the error taxonomy (spec section 7). -/
inductive StructuralError where
  | unterminated
  | nestedFence
deriving DecidableEq, Repr

/-- Modelled from the spec: a `CodeBlock` with its language tag, raw text
(as extracted lines) and structural diagnostic flag; document coordinates
are kept by SpanMapper's `BlockLayout`. -/
structure CodeBlock where
  language_tag : String
  raw_text : List String
  structural : Option StructuralError
deriving DecidableEq, Repr

/-- The content of a documentation line. -/
def contentOf : DocLine → String
  | .fence tag => tag
  | .text c => c

/-- Whether a documentation line is a fence line. -/
def isFence : DocLine → Bool
  | .fence _ => true
  | .text _ => false

/-- Modelled from the spec: BlockExtractor's scan.  Outside a block
(state `none`) a fence line opens a block; inside (state `some (tag, acc)`,
accumulated lines reversed) the bare closing fence ends the block, a tagged
fence is a nested fence — rejected with a structural error, processing
continuing — and end of input yields the block running to end-of-document
flagged malformed rather than dropping it. -/
def scanBlocks : Option (String × List String) → List DocLine → List CodeBlock
  | none, [] => []
  | some (tag, acc), [] => [⟨tag, acc.reverse, some .unterminated⟩]
  | none, .fence t :: rest => scanBlocks (some (t, [])) rest
  | none, .text _ :: rest => scanBlocks none rest
  | some (tag, acc), .fence t :: rest =>
    if t = "" then ⟨tag, acc.reverse, none⟩ :: scanBlocks none rest
    else ⟨tag, acc.reverse, some .nestedFence⟩ :: scanBlocks none rest
  | some (tag, acc), .text c :: rest => scanBlocks (some (tag, c :: acc)) rest

/-- Modelled from the spec: `BlockExtractor` over a whole document. -/
def extract (doc : List DocLine) : List CodeBlock :=
  scanBlocks none doc

/-- The scan state reached after consuming a list of lines. -/
def stateRun : Option (String × List String) → List DocLine → Option (String × List String)
  | st, [] => st
  | none, .fence t :: rest => stateRun (some (t, [])) rest
  | none, .text _ :: rest => stateRun none rest
  | some _, .fence _ :: rest => stateRun none rest
  | some (tag, acc), .text c :: rest => stateRun (some (tag, c :: acc)) rest

/-- The failure variants of `AnnotationProvider.infer` (spec section 4.3). -/
inductive AnalysisError where
  | Timeout
  | EngineUnavailable
  | Malformed
deriving DecidableEq, Repr

/-- Modelled from the spec: processing of one block — highlight it, ask the
annotation provider for type facts, fall back to no type facts when the
provider fails, merge, gap-fill and emit.  A provider failure degrades the
block to highlight-only output instead of aborting. -/
def processBlock (highlighter : List Char → List HighlightFact)
    (infer : List Char → Except AnalysisError (List TypeFact))
    (text : List Char) : List Token :=
  let tfacts :=
    match infer text with
    | .ok fs => fs
    | .error _ => []
  emitTokens text (gapFill text.length (merge (highlighter text) tfacts))

/-- Modelled from the spec: a documentation unit processes its blocks
independently, one output token list per block, in document order. -/
def processUnit (highlighter : List Char → List HighlightFact)
    (infer : List Char → Except AnalysisError (List TypeFact))
    (blocks : List (List Char)) : List (List Token) :=
  blocks.map (processBlock highlighter infer)

/-- A stub highlighter used to exercise the pipeline on concrete inputs. -/
def stubHighlighter (text : List Char) : List HighlightFact :=
  [⟨⟨0, min 3 text.length⟩, .Keyword⟩]

/-- A stub annotation provider that times out on short snippets. -/
def stubInfer (text : List Char) : Except AnalysisError (List TypeFact) :=
  if text.length ≤ 2 then .error .Timeout else .ok [⟨⟨0, 1⟩, "i32", none⟩]

end Twoslash

namespace Demo

/-- `Config` from `src/lib.rs`: a name, a port (a Rust `u16`; no arithmetic
is ever performed on it, so it is carried as a plain natural) and a debug
flag.  The Rust getter `name()` is the field projection. -/
structure Config where
  name : String
  port : Nat
  debug : Bool
deriving DecidableEq, Repr

/-- `Config::new` from `src/lib.rs`: port 3000, debug off. -/
def Config.new (name : String) : Config :=
  { name := name, port := 3000, debug := false }

/-- `Config::with_port` from `src/lib.rs`. -/
def Config.with_port (c : Config) (port : Nat) : Config :=
  { c with port := port }

/-- `Config::with_debug` from `src/lib.rs`. -/
def Config.with_debug (c : Config) (debug : Bool) : Config :=
  { c with debug := debug }

/-- `Config::address` from `src/lib.rs`: `format!("0.0.0.0:{}", self.port)`,
the port rendered in decimal. -/
def Config.address (c : Config) : String :=
  "0.0.0.0:" ++ Nat.repr c.port

/-- Rust `str::to_uppercase`, modelled character by character. -/
def to_uppercase (s : String) : String :=
  ⟨s.data.map Char.toUpper⟩

/-- `process_items` from `src/lib.rs`: iterate, keep the items whose byte
length (`str::len`) is at least `min_len`, uppercase each kept item. -/
def process_items : List String → Nat → List String
  | [], _ => []
  | s :: rest, min_len =>
    if min_len ≤ s.utf8ByteSize then to_uppercase s :: process_items rest min_len
    else process_items rest min_len

/-- `Store` from `src/lib.rs`: a `HashMap`-backed key-value store, embedded
extensionally as the lookup function it represents. -/
structure Store (K V : Type) where
  data : K → Option V

/-- `Store::new` from `src/lib.rs`: the empty store. -/
def Store.new {K V : Type} : Store K V :=
  ⟨fun _ => none⟩

/-- `Store::set` from `src/lib.rs`: `HashMap::insert`, overwriting the key. -/
def Store.set {K V : Type} [DecidableEq K] (s : Store K V) (key : K) (value : V) :
    Store K V :=
  ⟨fun k => if k = key then some value else s.data k⟩

/-- `Store::get` from `src/lib.rs`. -/
def Store.get {K V : Type} (s : Store K V) (key : K) : Option V :=
  s.data key

/-- `Store::contains` from `src/lib.rs`: `HashMap::contains_key`. -/
def Store.contains {K V : Type} (s : Store K V) (key : K) : Bool :=
  (s.data key).isSome

/-- A store built by a sequence of `set` calls on a fresh `Store::new`. -/
def setAll {K V : Type} [DecidableEq K] (ops : List (K × V)) : Store K V :=
  ops.foldl (fun s p => s.set p.1 p.2) Store.new

end Demo

namespace Demo

/-- C8: `Config.with_port` changes only the port field — the name and the
debug flag are unchanged, and `address` becomes `"0.0.0.0:"` followed by
the decimal rendering of the new port; `Config.new` always yields port
3000 and debug off. -/
theorem config_with_port_frame (c : Config) (p : Nat) (n : String) :
    (c.with_port p).name = c.name ∧ (c.with_port p).debug = c.debug
      ∧ (c.with_port p).address = "0.0.0.0:" ++ Nat.repr p
      ∧ (Config.new n).port = 3000 ∧ (Config.new n).debug = false :=
  ⟨rfl, rfl, rfl, rfl, rfl⟩

theorem process_items_eq (items : List String) (min_len : Nat) :
    process_items items min_len
      = (items.filter fun s => decide (min_len ≤ s.utf8ByteSize)).map to_uppercase := by
  induction items with
  | nil => rfl
  | cons s rest ih =>
    by_cases h : min_len ≤ s.utf8ByteSize
    · simp [process_items, h, ih]
    · simp [process_items, h, ih]

/-- C9: `process_items` returns exactly the uppercased versions of the
items whose byte length is at least `min_len`, in their original relative
order (a sublist of the uppercased input, so nothing is duplicated and the
short items are absent). -/
theorem process_items_spec (items : List String) (min_len : Nat) :
    process_items items min_len
        = (items.filter fun s => decide (min_len ≤ s.utf8ByteSize)).map to_uppercase
      ∧ (process_items items min_len).Sublist (items.map to_uppercase) := by
  refine ⟨process_items_eq items min_len, ?_⟩
  rw [process_items_eq items min_len]
  exact (List.filter_sublist items).map to_uppercase

theorem setAll_get_aux {K V : Type} [DecidableEq K] :
    ∀ (ops : List (K × V)) (s : Store K V) (k' : K), k' ∉ ops.map Prod.fst →
      (ops.foldl (fun s p => s.set p.1 p.2) s).get k' = s.get k' := by
  intro ops
  induction ops with
  | nil => intro s k' _; rfl
  | cons p rest ih =>
    intro s k' h
    rw [List.map_cons, List.mem_cons] at h
    push_neg at h
    rw [List.foldl_cons, ih _ _ h.2]
    show (if k' = p.1 then some p.2 else s.data k') = s.data k'
    rw [if_neg h.1]

/-- C10: after `set k v` the store answers `get k = some v` and
`contains k = true`; a key never set (distinct from every set key) answers
`get = none` and `contains = false` on any store built from `Store.new` by
a sequence of `set` calls, the empty sequence (a fresh store) included. -/
theorem store_spec {K V : Type} [DecidableEq K] (s : Store K V) (k k' : K) (v : V)
    (ops : List (K × V)) (hk : k' ∉ ops.map Prod.fst) :
    (s.set k v).get k = some v ∧ (s.set k v).contains k = true
      ∧ (setAll ops : Store K V).get k' = none
      ∧ (setAll ops : Store K V).contains k' = false := by
  have hget : (setAll ops : Store K V).get k' = none := by
    unfold setAll
    rw [setAll_get_aux ops Store.new k' hk]
    rfl
  refine ⟨?_, ?_, hget, ?_⟩
  · show (if k = k then some v else s.data k) = some v
    rw [if_pos rfl]
  · show (if k = k then some v else s.data k).isSome = true
    rw [if_pos rfl]
    rfl
  · show ((setAll ops : Store K V).data k').isSome = false
    have : (setAll ops : Store K V).data k' = none := hget
    rw [this]
    rfl

/-- Witness for `store_spec` on a concrete store over natural numbers. -/
theorem store_spec_witness :
    (5 ∉ ([(1, 2), (3, 4)] : List (Nat × Nat)).map Prod.fst)
      ∧ (((Store.new : Store Nat Nat).set 1 2).get 1 = some 2
          ∧ ((Store.new : Store Nat Nat).set 1 2).contains 1 = true
          ∧ (setAll [(1, 2), (3, 4)] : Store Nat Nat).get 5 = none
          ∧ (setAll [(1, 2), (3, 4)] : Store Nat Nat).contains 5 = false) :=
  ⟨by decide, store_spec Store.new 1 5 2 [(1, 2), (3, 4)] (by decide)⟩

end Demo

namespace Twoslash

theorem join_slices (text : List Char) :
    ∀ (decs : List Decoration) (pos : Nat), tilesFrom text.length pos decs = true →
      ((emitTokens text decs).map Token.text_slice).flatten = text.drop pos := by
  intro decs
  induction decs with
  | nil =>
    intro pos h
    simp only [tilesFrom, decide_eq_true_eq] at h
    simp [emitTokens, h, List.drop_length]
  | cons d rest ih =>
    intro pos h
    simp only [tilesFrom, Bool.and_eq_true, decide_eq_true_eq] at h
    obtain ⟨⟨hstart, hle⟩, htail⟩ := h
    simp only [emitTokens, List.map_cons, List.flatten_cons]
    have htailjoin := ih d.snippet_span.stop htail
    simp only [emitTokens] at htailjoin
    rw [htailjoin]
    show sliceOf text d.snippet_span ++ text.drop d.snippet_span.stop = text.drop pos
    rw [sliceOf, hstart]
    have hdd : text.drop d.snippet_span.stop
        = (text.drop pos).drop (d.snippet_span.stop - pos) := by
      rw [List.drop_drop]
      congr 1
      omega
    rw [hdd, List.take_append_drop]

/-- C1: TokenEmitter round-trip — for a decoration sequence that tiles the
snippet (the spec's premise for emission, established by gap filling),
concatenating the emitted `text_slice` values reproduces the snippet text
exactly; and emission is a pure function, so re-running it on the same
decorations produces identical tokens. -/
theorem token_round_trip (text : List Char) (decs : List Decoration)
    (h : tilesFrom text.length 0 decs = true) :
    ((emitTokens text decs).map Token.text_slice).flatten = text
      ∧ emitTokens text decs = emitTokens text decs := by
  refine ⟨?_, rfl⟩
  have := join_slices text decs 0 h
  simpa using this

/-- Witness for `token_round_trip` on a concrete two-token tiling. -/
theorem token_round_trip_witness :
    tilesFrom ("ab".data.length) 0 [plainDec 0 1, plainDec 1 2] = true
      ∧ (((emitTokens "ab".data [plainDec 0 1, plainDec 1 2]).map Token.text_slice).flatten
            = "ab".data
          ∧ emitTokens "ab".data [plainDec 0 1, plainDec 1 2]
              = emitTokens "ab".data [plainDec 0 1, plainDec 1 2]) :=
  ⟨by decide, token_round_trip "ab".data [plainDec 0 1, plainDec 1 2] (by decide)⟩

theorem lineIndex_mono (lens : List Nat) :
    ∀ (o o' : Nat), o ≤ o' → lineIndex lens o ≤ lineIndex lens o' := by
  induction lens with
  | nil => intro o o' _; exact le_refl 0
  | cons l rest ih =>
    intro o o' h
    by_cases h1 : o < l
    · simp only [lineIndex, if_pos h1]
      exact Nat.zero_le _
    · have h2 : ¬ o' < l := by omega
      simp only [lineIndex, if_neg h1, if_neg h2]
      have := ih (o - l) (o' - l) (by omega)
      omega

/-- C4: `SpanMapper.to_document` is strictly monotonic — local spans with
`a.start < b.start` map to document spans with strictly increasing starts,
since the per-line stripped prefixes only accumulate with the line index. -/
theorem spanmapper_monotonic (layout : BlockLayout) (a b : Span)
    (h : a.start < b.start) :
    (to_document layout a).start < (to_document layout b).start := by
  show toDocumentOffset layout a.start < toDocumentOffset layout b.start
  unfold toDocumentOffset
  have h1 : lineIndex layout.line_lens a.start ≤ lineIndex layout.line_lens b.start :=
    lineIndex_mono _ _ _ (le_of_lt h)
  have h2 : (layout.line_prefixes.take (lineIndex layout.line_lens a.start + 1)).sum
      ≤ (layout.line_prefixes.take (lineIndex layout.line_lens b.start + 1)).sum := by
    apply List.Sublist.sum_le_sum
    · exact List.take_sublist_take_left _ (by omega)
    · intro x _
      exact Nat.zero_le x
  omega

/-- Witness for `spanmapper_monotonic` on a two-line layout with stripped
doc-comment prefixes. -/
theorem spanmapper_monotonic_witness :
    (Span.mk 0 0).start < (Span.mk 6 6).start
      ∧ (to_document ⟨10, [5, 5], [4, 4]⟩ ⟨0, 0⟩).start
          < (to_document ⟨10, [5, 5], [4, 4]⟩ ⟨6, 6⟩).start :=
  ⟨by decide, spanmapper_monotonic ⟨10, [5, 5], [4, 4]⟩ ⟨0, 0⟩ ⟨6, 6⟩ (by decide)⟩

/-- C6 counterexample: on the documented scenario the merger (with the gap
filling the scenario itself exhibits) produces four decorations, not the
three the sentence announces — the sentence then lists four. -/
theorem scenario_count_not_three :
    ¬ ((gapFill ("let total: i32 = scores.values().sum();".data.length)
          (merge [⟨⟨0, 3⟩, .Keyword⟩] [⟨⟨4, 9⟩, "i32", none⟩])).length = 3) := by
  decide

/-- C6 (amended): merging the single TypeFact `(4,9) i32` with the single
HighlightFact `(0,3) Keyword` over the 39-byte snippet yields exactly four
decorations — `[0,3)` Keyword, `[3,4)` plain, `[4,9)` type `i32`, and
`[9,39)` plain — gap-filled and non-overlapping. -/
theorem scenario_merge_decorations :
    gapFill ("let total: i32 = scores.values().sum();".data.length)
        (merge [⟨⟨0, 3⟩, .Keyword⟩] [⟨⟨4, 9⟩, "i32", none⟩])
      = [⟨⟨0, 3⟩, some [.Keyword], none, none⟩, plainDec 3 4,
         ⟨⟨4, 9⟩, none, some "i32", none⟩, plainDec 9 39] := by
  decide

theorem scanBlocks_append :
    ∀ (pre : List DocLine) (st : Option (String × List String)) (rest : List DocLine),
      stateRun st pre = none →
        scanBlocks st (pre ++ rest) = scanBlocks st pre ++ scanBlocks none rest := by
  intro pre
  induction pre with
  | nil =>
    intro st rest h
    simp only [stateRun] at h
    subst h
    simp [scanBlocks]
  | cons l pre' ih =>
    intro st rest h
    cases st with
    | none =>
      cases l with
      | fence t =>
        simp only [stateRun] at h
        simp only [List.cons_append, scanBlocks, List.append_eq]
        exact ih _ _ h
      | text c =>
        simp only [stateRun] at h
        simp only [List.cons_append, scanBlocks, List.append_eq]
        exact ih _ _ h
    | some p =>
      obtain ⟨tag, acc⟩ := p
      cases l with
      | fence t =>
        simp only [stateRun] at h
        simp only [List.cons_append, scanBlocks, List.append_eq]
        by_cases ht : t = ""
        · simp only [if_pos ht, List.cons_append]
          rw [ih _ _ h]
        · simp only [if_neg ht, List.cons_append]
          rw [ih _ _ h]
      | text c =>
        simp only [stateRun] at h
        simp only [List.cons_append, scanBlocks, List.append_eq]
        exact ih _ _ h

theorem scanBlocks_all_text (tag : String) :
    ∀ (body : List DocLine) (acc : List String),
      (∀ l ∈ body, isFence l = false) →
        scanBlocks (some (tag, acc)) body
          = [⟨tag, acc.reverse ++ body.map contentOf, some .unterminated⟩] := by
  intro body
  induction body with
  | nil =>
    intro acc _
    simp [scanBlocks]
  | cons l body' ih =>
    intro acc h
    cases l with
    | fence t =>
      have := h _ (List.mem_cons_self _ _)
      simp [isFence] at this
    | text c =>
      simp only [scanBlocks]
      rw [ih (c :: acc) (fun l hl => h l (List.mem_cons_of_mem _ hl))]
      simp [contentOf, List.reverse_cons, List.append_assoc]

theorem scanBlocks_nested (tag t' : String) (ht' : t' ≠ "") :
    ∀ (body : List DocLine) (acc : List String) (rest : List DocLine),
      (∀ l ∈ body, isFence l = false) →
        scanBlocks (some (tag, acc)) (body ++ DocLine.fence t' :: rest)
          = ⟨tag, acc.reverse ++ body.map contentOf, some .nestedFence⟩
              :: scanBlocks none rest := by
  intro body
  induction body with
  | nil =>
    intro acc rest _
    simp only [List.nil_append, scanBlocks, if_neg ht']
    simp [contentOf]
  | cons l body' ih =>
    intro acc rest h
    cases l with
    | fence t =>
      have := h _ (List.mem_cons_self _ _)
      simp [isFence] at this
    | text c =>
      simp only [List.cons_append, scanBlocks, List.append_eq]
      rw [ih (c :: acc) rest (fun l hl => h l (List.mem_cons_of_mem _ hl))]
      simp [contentOf, List.reverse_cons, List.append_assoc]

/-- C7: a fence opened after any well-balanced prefix and never terminated
yields a block whose text runs to the end of the document, flagged
malformed rather than dropped; and a tagged fence opened inside the block
(a nested fence) is rejected with a structural error while processing
continues with the rest of the document. -/
theorem blockextractor_unterminated_flagged (pre body rest : List DocLine)
    (t t' : String) (hpre : stateRun none pre = none)
    (hbody : body.all (fun l => !(isFence l)) = true) (ht' : t' ≠ "") :
    extract (pre ++ DocLine.fence t :: body)
        = extract pre ++ [⟨t, body.map contentOf, some .unterminated⟩]
      ∧ extract (pre ++ DocLine.fence t :: (body ++ DocLine.fence t' :: rest))
          = extract pre ++ ⟨t, body.map contentOf, some .nestedFence⟩
              :: scanBlocks none rest := by
  have hb : ∀ l ∈ body, isFence l = false := by
    intro l hl
    have := List.all_eq_true.mp hbody l hl
    simp at this
    exact this
  constructor
  · unfold extract
    rw [scanBlocks_append pre none _ hpre]
    congr 1
    simp only [scanBlocks]
    rw [scanBlocks_all_text t body [] hb]
    simp
  · unfold extract
    rw [scanBlocks_append pre none _ hpre]
    congr 1
    simp only [scanBlocks]
    rw [scanBlocks_nested t t' ht' body [] rest hb]
    simp

/-- Witness for `blockextractor_unterminated_flagged` on a concrete
document with one text line before and inside the fence. -/
theorem blockextractor_witness :
    stateRun none [DocLine.text "intro"] = none
      ∧ ([DocLine.text "code"].all (fun l => !(isFence l)) = true)
      ∧ ("rust" : String) ≠ ""
      ∧ (extract ([DocLine.text "intro"] ++ DocLine.fence "rs" :: [DocLine.text "code"])
            = extract [DocLine.text "intro"]
                ++ [⟨"rs", [DocLine.text "code"].map contentOf, some .unterminated⟩]
          ∧ extract ([DocLine.text "intro"]
                ++ DocLine.fence "rs" :: ([DocLine.text "code"]
                    ++ DocLine.fence "rust" :: [DocLine.text "tail"]))
              = extract [DocLine.text "intro"]
                  ++ ⟨"rs", [DocLine.text "code"].map contentOf, some .nestedFence⟩
                      :: scanBlocks none [DocLine.text "tail"]) :=
  ⟨by decide, by decide, by decide,
    blockextractor_unterminated_flagged [DocLine.text "intro"] [DocLine.text "code"]
      [DocLine.text "tail"] "rs" "rust" (by decide) (by decide) (by decide)⟩

theorem mkDecoration_typelabel_nil (hs : List HighlightFact) (a b : Nat) (d : Decoration)
    (h : mkDecoration hs [] a b = some d) :
    d.type_label = none ∧ d.diagnostic = none := by
  simp only [mkDecoration, List.filter_nil, List.isEmpty_nil, Bool.and_true, labelInfo] at h
  by_cases hc : (classesFor hs a b).isEmpty
  · rw [if_pos hc] at h
    exact absurd h (by simp)
  · rw [if_neg hc] at h
    have := Option.some.inj h
    subst this
    exact ⟨rfl, rfl⟩

theorem merge_nil_typefacts (hs : List HighlightFact) (d : Decoration)
    (hd : d ∈ merge hs []) : d.type_label = none := by
  unfold merge at hd
  rw [List.mem_filterMap] at hd
  obtain ⟨p, _, hp⟩ := hd
  exact (mkDecoration_typelabel_nil hs p.1 p.2 d hp).1

theorem gapFillFrom_mem (len : Nat) :
    ∀ (decs : List Decoration) (pos : Nat) (d : Decoration),
      d ∈ gapFillFrom len pos decs → d ∈ decs ∨ d.type_label = none := by
  intro decs
  induction decs with
  | nil =>
    intro pos d hd
    by_cases h : pos < len
    · simp only [gapFillFrom, if_pos h, List.mem_singleton] at hd
      subst hd
      exact Or.inr rfl
    · simp only [gapFillFrom, if_neg h] at hd
      exact absurd hd (List.not_mem_nil d)
  | cons d' rest ih =>
    intro pos d hd
    simp only [gapFillFrom] at hd
    by_cases h : pos < d'.snippet_span.start
    · rw [if_pos h] at hd
      rcases List.mem_cons.mp hd with rfl | hd
      · exact Or.inr rfl
      · rcases List.mem_cons.mp hd with rfl | hd
        · exact Or.inl (List.mem_cons_self _ _)
        · rcases ih _ _ hd with h1 | h1
          · exact Or.inl (List.mem_cons_of_mem _ h1)
          · exact Or.inr h1
    · rw [if_neg h] at hd
      rcases List.mem_cons.mp hd with rfl | hd
      · exact Or.inl (List.mem_cons_self _ _)
      · rcases ih _ _ hd with h1 | h1
        · exact Or.inl (List.mem_cons_of_mem _ h1)
        · exact Or.inr h1

theorem emitTokens_typelabel (text : List Char) (decs : List Decoration)
    (h : ∀ d ∈ decs, d.type_label = none) :
    ∀ tok ∈ emitTokens text decs, tok.type_label = none := by
  intro tok htok
  unfold emitTokens at htok
  rw [List.mem_map] at htok
  obtain ⟨d, hd, rfl⟩ := htok
  exact h d hd

/-- C5: failure containment — a documentation unit emits one token list per
block (no block is dropped by a failure); the block whose `infer` call
failed is still emitted, highlight-only (every token's `type_label` is
absent); and every other block's output is exactly its own independent
`processBlock` result, so siblings with a successful engine run keep their
full annotation. -/
theorem failure_containment
    (highlighter : List Char → List HighlightFact)
    (infer : List Char → Except AnalysisError (List TypeFact))
    (blocks : List (List Char)) (i j : Nat) (bi : List Char) (e : AnalysisError)
    (hb : blocks[i]? = some bi) (he : infer bi = .error e) :
    (processUnit highlighter infer blocks).length = blocks.length
      ∧ (processUnit highlighter infer blocks)[i]?
          = some (emitTokens bi (gapFill bi.length (merge (highlighter bi) [])))
      ∧ (emitTokens bi (gapFill bi.length (merge (highlighter bi) []))).all
          (fun tok => tok.type_label.isNone) = true
      ∧ (processUnit highlighter infer blocks)[j]?
          = (blocks[j]?).map (processBlock highlighter infer) := by
  refine ⟨List.length_map _ _, ?_, ?_, List.getElem?_map _ _ _⟩
  · rw [processUnit, List.getElem?_map, hb]
    show some (processBlock highlighter infer bi) = _
    congr 1
    simp only [processBlock, he]
  · rw [List.all_eq_true]
    intro tok htok
    have hnone : tok.type_label = none := by
      refine emitTokens_typelabel _ _ ?_ tok htok
      intro d hd
      rcases gapFillFrom_mem _ _ _ _ hd with h1 | h1
      · exact merge_nil_typefacts _ _ h1
      · exact h1
    rw [hnone]
    rfl

/-- Witness for `failure_containment`: the stub provider times out on the
one-character block and succeeds on its four-character sibling. -/
theorem failure_containment_witness :
    (([['a'], ['b', 'c', 'd', 'e']] : List (List Char))[0]? = some ['a'])
      ∧ (stubInfer ['a'] = Except.error AnalysisError.Timeout)
      ∧ ((processUnit stubHighlighter stubInfer [['a'], ['b', 'c', 'd', 'e']]).length
            = ([['a'], ['b', 'c', 'd', 'e']] : List (List Char)).length
          ∧ (processUnit stubHighlighter stubInfer [['a'], ['b', 'c', 'd', 'e']])[0]?
              = some (emitTokens ['a']
                  (gapFill (['a'] : List Char).length (merge (stubHighlighter ['a']) [])))
          ∧ (emitTokens ['a']
                (gapFill (['a'] : List Char).length (merge (stubHighlighter ['a']) []))).all
              (fun tok => tok.type_label.isNone) = true
          ∧ (processUnit stubHighlighter stubInfer [['a'], ['b', 'c', 'd', 'e']])[1]?
              = (([['a'], ['b', 'c', 'd', 'e']] : List (List Char))[1]?).map
                  (processBlock stubHighlighter stubInfer)) :=
  ⟨rfl, rfl,
    failure_containment stubHighlighter stubInfer [['a'], ['b', 'c', 'd', 'e']]
      0 1 ['a'] .Timeout rfl rfl⟩

theorem perm_any {α : Type} {l₁ l₂ : List α} (p : α → Bool) (h : l₁.Perm l₂) :
    l₁.any p = l₂.any p := by
  apply Bool.eq_iff_iff.mpr
  simp only [List.any_eq_true]
  constructor
  · rintro ⟨x, hx, hp⟩
    exact ⟨x, h.mem_iff.mp hx, hp⟩
  · rintro ⟨x, hx, hp⟩
    exact ⟨x, h.mem_iff.mpr hx, hp⟩

theorem perm_isEmpty {α : Type} {l₁ l₂ : List α} (h : l₁.Perm l₂) :
    l₁.isEmpty = l₂.isEmpty := by
  cases l₁ with
  | nil =>
    have h2 : l₂ = [] := List.perm_nil.mp h.symm
    rw [h2]
  | cons a l =>
    cases l₂ with
    | nil => exact absurd (List.perm_nil.mp h) (by simp)
    | cons b m => rfl

theorem isBoundary_perm {hs hs' : List HighlightFact} {ts ts' : List TypeFact}
    (hh : hs.Perm hs') (ht : ts.Perm ts') (n : Nat) :
    isBoundary hs ts n = isBoundary hs' ts' n := by
  unfold isBoundary
  rw [perm_any _ hh, perm_any _ ht]

theorem boundsList_sum_perm {hs hs' : List HighlightFact} {ts ts' : List TypeFact}
    (hh : hs.Perm hs') (ht : ts.Perm ts') :
    (boundsList hs ts).sum = (boundsList hs' ts').sum := by
  have hperm : (boundsList hs ts).Perm (boundsList hs' ts') := by
    unfold boundsList
    exact (((hh.map _).append (hh.map _)).append (ht.map _)).append (ht.map _)
  exact hperm.sum_eq

theorem boundaries_perm {hs hs' : List HighlightFact} {ts ts' : List TypeFact}
    (hh : hs.Perm hs') (ht : ts.Perm ts') :
    boundaries hs ts = boundaries hs' ts' := by
  unfold boundaries
  rw [boundsList_sum_perm hh ht]
  exact List.filter_congr fun n _ => isBoundary_perm hh ht n

theorem labelInfo_perm : ∀ {l₁ l₂ : List TypeFact}, l₁.Perm l₂ →
    labelInfo l₁ = labelInfo l₂ := by
  intro l₁ l₂ h
  cases l₁ with
  | nil =>
    have h2 : l₂ = [] := List.perm_nil.mp h.symm
    rw [h2]
  | cons f₁ r₁ =>
    cases l₂ with
    | nil => exact absurd (List.perm_nil.mp h) (by simp)
    | cons f₂ r₂ =>
      simp only [labelInfo]
      by_cases hall : ∀ x ∈ r₁, x.label = f₁.label
      · have h1 : ∀ x ∈ f₁ :: r₁, x.label = f₁.label := by
          intro x hx
          rcases List.mem_cons.mp hx with rfl | hx
          · rfl
          · exact hall x hx
        have h2 : ∀ x ∈ f₂ :: r₂, x.label = f₁.label := fun x hx => h1 x (h.mem_iff.mpr hx)
        have hf2 : f₂.label = f₁.label := h2 f₂ (List.mem_cons_self _ _)
        have hc1 : r₁.all (fun g => decide (g.label = f₁.label)) = true := by
          rw [List.all_eq_true]
          intro g hg
          exact decide_eq_true (hall g hg)
        have hc2 : r₂.all (fun g => decide (g.label = f₂.label)) = true := by
          rw [List.all_eq_true]
          intro g hg
          refine decide_eq_true ?_
          rw [hf2]
          exact h2 g (List.mem_cons_of_mem _ hg)
        rw [hc1, hc2]
        simp [hf2]
      · obtain ⟨g, hg, hgl⟩ : ∃ g ∈ r₁, g.label ≠ f₁.label := by
          by_contra hc
          push_neg at hc
          exact hall hc
        have hc1 : r₁.all (fun g => decide (g.label = f₁.label)) = false := by
          cases hcase : r₁.all (fun g => decide (g.label = f₁.label)) with
          | false => rfl
          | true =>
            exact absurd (of_decide_eq_true (List.all_eq_true.mp hcase g hg)) hgl
        have hc2 : r₂.all (fun g => decide (g.label = f₂.label)) = false := by
          cases hcase : r₂.all (fun g => decide (g.label = f₂.label)) with
          | false => rfl
          | true =>
            exfalso
            have h2 : ∀ x ∈ f₂ :: r₂, x.label = f₂.label := by
              intro x hx
              rcases List.mem_cons.mp hx with rfl | hx
              · rfl
              · exact of_decide_eq_true (List.all_eq_true.mp hcase x hx)
            have h1 : ∀ x ∈ f₁ :: r₁, x.label = f₂.label := fun x hx =>
              h2 x (h.mem_iff.mp hx)
            have e1 : g.label = f₂.label := h1 g (List.mem_cons_of_mem _ hg)
            have e2 : f₁.label = f₂.label := h1 f₁ (List.mem_cons_self _ _)
            exact hgl (e1.trans e2.symm)
        rw [hc1, hc2]
        simp

theorem mkDecoration_perm {hs hs' : List HighlightFact} {ts ts' : List TypeFact}
    (hh : hs.Perm hs') (ht : ts.Perm ts') (a b : Nat) :
    mkDecoration hs ts a b = mkDecoration hs' ts' a b := by
  have hcs : classesFor hs a b = classesFor hs' a b := by
    unfold classesFor
    exact List.filter_congr fun c _ => perm_any _ hh
  have hcover : (ts.filter fun f => coversI f.snippet_span a b).Perm
      (ts'.filter fun f => coversI f.snippet_span a b) := ht.filter _
  simp only [mkDecoration]
  rw [hcs, perm_isEmpty hcover, labelInfo_perm hcover]

/-- C2: DecorationMerger is order independent — permuting either input
fact stream leaves the output decoration sequence unchanged; only the span
boundaries occurring in the facts (and the facts covering each minimal
interval) determine the output. -/
theorem merge_order_independent (hs hs' : List HighlightFact) (ts ts' : List TypeFact)
    (hh : hs.Perm hs') (ht : ts.Perm ts') :
    merge hs ts = merge hs' ts' := by
  unfold merge
  rw [boundaries_perm hh ht]
  have hfun : (fun p : Nat × Nat => mkDecoration hs ts p.1 p.2)
      = (fun p : Nat × Nat => mkDecoration hs' ts' p.1 p.2) :=
    funext fun p => mkDecoration_perm hh ht p.1 p.2
  rw [hfun]

/-- Witness for `merge_order_independent`: both fact streams reversed. -/
theorem merge_order_independent_witness :
    ([⟨⟨0, 3⟩, .Keyword⟩, ⟨⟨5, 7⟩, .Ident⟩] : List HighlightFact).Perm
        [⟨⟨5, 7⟩, .Ident⟩, ⟨⟨0, 3⟩, .Keyword⟩]
      ∧ ([⟨⟨4, 9⟩, "i32", none⟩, ⟨⟨1, 2⟩, "u8", none⟩] : List TypeFact).Perm
          [⟨⟨1, 2⟩, "u8", none⟩, ⟨⟨4, 9⟩, "i32", none⟩]
      ∧ merge [⟨⟨0, 3⟩, .Keyword⟩, ⟨⟨5, 7⟩, .Ident⟩]
            [⟨⟨4, 9⟩, "i32", none⟩, ⟨⟨1, 2⟩, "u8", none⟩]
          = merge [⟨⟨5, 7⟩, .Ident⟩, ⟨⟨0, 3⟩, .Keyword⟩]
              [⟨⟨1, 2⟩, "u8", none⟩, ⟨⟨4, 9⟩, "i32", none⟩] :=
  ⟨by decide, by decide,
    merge_order_independent _ _ _ _ (by decide) (by decide)⟩

theorem mkDecoration_span {hs : List HighlightFact} {ts : List TypeFact}
    {a b : Nat} {d : Decoration} (h : mkDecoration hs ts a b = some d) :
    d.snippet_span = ⟨a, b⟩ := by
  simp only [mkDecoration] at h
  by_cases hc : (classesFor hs a b).isEmpty
      && (ts.filter fun f => coversI f.snippet_span a b).isEmpty
  · rw [if_pos hc] at h
    exact absurd h (by simp)
  · rw [if_neg hc] at h
    have := Option.some.inj h
    subst this
    rfl

theorem intervals_fst_mem : ∀ (bs : List Nat) (p : Nat × Nat),
    p ∈ intervals bs → p.1 ∈ bs
  | [], p, hp => by simp [intervals] at hp
  | [a], p, hp => by simp [intervals] at hp
  | a :: b :: rest, p, hp => by
    simp only [intervals] at hp
    rcases List.mem_cons.mp hp with rfl | hp
    · exact List.mem_cons_self _ _
    · exact List.mem_cons_of_mem _ (intervals_fst_mem (b :: rest) p hp)

theorem intervals_pairwise : ∀ (bs : List Nat), bs.Pairwise (· < ·) →
    (intervals bs).Pairwise (fun p q => p.2 ≤ q.1)
  | [], _ => by simp [intervals]
  | [a], _ => by simp [intervals]
  | a :: b :: rest, h => by
    rw [List.pairwise_cons] at h
    obtain ⟨ha, h'⟩ := h
    simp only [intervals]
    rw [List.pairwise_cons]
    constructor
    · intro q hq
      have hmem : q.1 ∈ b :: rest := intervals_fst_mem _ _ hq
      rcases List.mem_cons.mp hmem with h1 | h1
      · exact le_of_eq h1.symm
      · exact le_of_lt ((List.pairwise_cons.mp h').1 q.1 h1)
    · exact intervals_pairwise (b :: rest) h'

theorem merge_pairwise (hs : List HighlightFact) (ts : List TypeFact) :
    (merge hs ts).Pairwise
      (fun d e => d.snippet_span.stop ≤ e.snippet_span.start) := by
  unfold merge
  rw [List.pairwise_filterMap]
  have hb : (boundaries hs ts).Pairwise (· < ·) :=
    List.Pairwise.filter _ (List.pairwise_lt_range _)
  refine (intervals_pairwise _ hb).imp ?_
  intro p q hpq x hx y hy
  rw [Option.mem_def] at hx hy
  rw [mkDecoration_span hx, mkDecoration_span hy]
  exact hpq

/-- C3: in any output of DecorationMerger, two decorations' spans are
either exactly identical or disjoint — never partially overlapping — since
the output decorates consecutive minimal intervals between the strictly
sorted boundaries. -/
theorem merge_no_partial_overlap (hs : List HighlightFact) (ts : List TypeFact)
    (d₁ d₂ : Decoration) (h₁ : d₁ ∈ merge hs ts) (h₂ : d₂ ∈ merge hs ts) :
    d₁.snippet_span = d₂.snippet_span
      ∨ d₁.snippet_span.stop ≤ d₂.snippet_span.start
      ∨ d₂.snippet_span.stop ≤ d₁.snippet_span.start := by
  rcases eq_or_ne d₁ d₂ with rfl | hne
  · exact Or.inl rfl
  · have hp : (merge hs ts).Pairwise
        (fun d e => d.snippet_span = e.snippet_span
          ∨ d.snippet_span.stop ≤ e.snippet_span.start
          ∨ e.snippet_span.stop ≤ d.snippet_span.start) := by
      refine (merge_pairwise hs ts).imp ?_
      intro a b h
      exact Or.inr (Or.inl h)
    refine hp.forall ?_ h₁ h₂ hne
    intro a b hab
    rcases hab with h | h | h
    · exact Or.inl h.symm
    · exact Or.inr (Or.inr h)
    · exact Or.inr (Or.inl h)

/-- Witness for `merge_no_partial_overlap` on the two decorations of the
crate-documentation scenario. -/
theorem merge_no_partial_overlap_witness :
    ((⟨⟨0, 3⟩, some [.Keyword], none, none⟩ : Decoration)
        ∈ merge [(⟨⟨0, 3⟩, .Keyword⟩ : HighlightFact)]
            [(⟨⟨4, 9⟩, "i32", none⟩ : TypeFact)])
      ∧ ((⟨⟨4, 9⟩, none, some "i32", none⟩ : Decoration)
          ∈ merge [(⟨⟨0, 3⟩, .Keyword⟩ : HighlightFact)]
              [(⟨⟨4, 9⟩, "i32", none⟩ : TypeFact)])
      ∧ ((⟨⟨0, 3⟩, some [.Keyword], none, none⟩ : Decoration).snippet_span
            = (⟨⟨4, 9⟩, none, some "i32", none⟩ : Decoration).snippet_span
          ∨ (⟨⟨0, 3⟩, some [.Keyword], none, none⟩ : Decoration).snippet_span.stop
              ≤ (⟨⟨4, 9⟩, none, some "i32", none⟩ : Decoration).snippet_span.start
          ∨ (⟨⟨4, 9⟩, none, some "i32", none⟩ : Decoration).snippet_span.stop
              ≤ (⟨⟨0, 3⟩, some [.Keyword], none, none⟩ : Decoration).snippet_span.start) :=
  ⟨by decide, by decide,
    merge_no_partial_overlap [⟨⟨0, 3⟩, .Keyword⟩] [⟨⟨4, 9⟩, "i32", none⟩]
      ⟨⟨0, 3⟩, some [.Keyword], none, none⟩ ⟨⟨4, 9⟩, none, some "i32", none⟩
      (by decide) (by decide)⟩

end Twoslash

